import Mathlib

/-!
# makifdb/spellcheck: a prefix tree with edit-distance suggestions

A shallow embedding of `src/spellcheck.go`.

* A Go `string` is a finite sequence of bytes (`GoString`).  `len`, indexing and
  slicing work on bytes; `for _, c := range s` decodes UTF-8 and yields runes,
  every byte that does not start a valid encoding yielding `U+FFFD`.
* `map[rune]*LetterNode` is a partial function from runes to nodes.  Nodes are
  only ever allocated fresh inside `Insert` and reached through their parent, so
  the heap of nodes is a tree and in-place mutation is modelled by rebuilding
  the path from the root.
* A nil pointer dereference is a run-time panic: operations that can reach one
  return `Option`, with `none` standing for the panic.
* `depth` is a natural number: the specification's data model only admits
  non-negative depths, and the generator only ever decrements it.
* The reader/writer lock is not modelled; every operation is taken atomically.
-/

set_option maxRecDepth 100000

namespace Spellcheck

/-! ## Go strings -/

/-- One byte of a Go string. -/
abbrev Byte := Fin 256

/-- A Go `string`: an immutable sequence of bytes. -/
abbrev GoString := List Byte

/-- A Go `rune` (a Unicode code point). -/
abbrev Rune := Nat

/-- The replacement character `U+FFFD` produced for invalid UTF-8. -/
def runeError : Rune := 0xFFFD

/-- Continuation byte test: `0x80 <= b <= 0xBF`. -/
def isCont (b : Byte) : Bool := decide (0x80 ≤ b.val) && decide (b.val ≤ 0xBF)

/-- Decoding of the first rune of a non-empty string as done by Go's `range` over a
string: the rune and the number of bytes consumed.  An invalid or truncated
encoding (overlong forms, surrogates and values above `U+10FFFF` included)
consumes one byte and yields `U+FFFD`. -/
def decodeRune : GoString → Rune × Nat
  | [] => (runeError, 1)
  | b0 :: rest =>
    if b0.val < 0x80 then (b0.val, 1)
    else if 0xC0 ≤ b0.val ∧ b0.val < 0xE0 then
      match rest with
      | b1 :: _ =>
        if isCont b1 then
          let r := (b0.val % 32) * 64 + b1.val % 64
          if 0x7F < r then (r, 2) else (runeError, 1)
        else (runeError, 1)
      | _ => (runeError, 1)
    else if 0xE0 ≤ b0.val ∧ b0.val < 0xF0 then
      match rest with
      | b1 :: b2 :: _ =>
        if isCont b1 && isCont b2 then
          let r := (b0.val % 16) * 4096 + (b1.val % 64) * 64 + b2.val % 64
          if 0x7FF < r ∧ ¬ (0xD800 ≤ r ∧ r ≤ 0xDFFF) then (r, 3) else (runeError, 1)
        else (runeError, 1)
      | _ => (runeError, 1)
    else if 0xF0 ≤ b0.val ∧ b0.val < 0xF8 then
      match rest with
      | b1 :: b2 :: b3 :: _ =>
        if isCont b1 && isCont b2 && isCont b3 then
          let r := (b0.val % 8) * 262144 + (b1.val % 64) * 4096 + (b2.val % 64) * 64
                    + b3.val % 64
          if 0xFFFF < r ∧ r ≤ 0x10FFFF then (r, 4) else (runeError, 1)
        else (runeError, 1)
      | _ => (runeError, 1)
    else (runeError, 1)

/-- The loop `for _, c := range s` unrolled at most `fuel` times. -/
def runesAux : Nat → GoString → List Rune
  | 0, _ => []
  | _ + 1, [] => []
  | fuel + 1, b :: rest =>
    (decodeRune (b :: rest)).1 :: runesAux fuel ((b :: rest).drop (decodeRune (b :: rest)).2)

/-- The runes visited by `for _, c := range s`.  Every iteration consumes at least
one byte, so `len s` iterations always reach the end of the string. -/
def runes (s : GoString) : List Rune := runesAux s.length s

/-- The conversion `string(r)` of an integer to a string: the UTF-8 encoding of
the code point `r`, and of `U+FFFD` when `r` is a surrogate or out of range. -/
def stringOfRune (r : Rune) : GoString :=
  if r < 0x80 then [Fin.ofNat r]
  else if r < 0x800 then [Fin.ofNat (0xC0 + r / 64), Fin.ofNat (0x80 + r % 64)]
  else if 0x10FFFF < r ∨ (0xD800 ≤ r ∧ r ≤ 0xDFFF) then [0xEF, 0xBF, 0xBD]
  else if r < 0x10000 then
    [Fin.ofNat (0xE0 + r / 4096), Fin.ofNat (0x80 + r / 64 % 64), Fin.ofNat (0x80 + r % 64)]
  else
    [Fin.ofNat (0xF0 + r / 262144), Fin.ofNat (0x80 + r / 4096 % 64),
     Fin.ofNat (0x80 + r / 64 % 64), Fin.ofNat (0x80 + r % 64)]

/-- The constant `DEFAULT_ALPHABET = "abcdefghijklmnopqrstuvwxyz"`. -/
def DEFAULT_ALPHABET : GoString :=
  [97, 98, 99, 100, 101, 102, 103, 104, 105, 106, 107, 108, 109,
   110, 111, 112, 113, 114, 115, 116, 117, 118, 119, 120, 121, 122]

/-- The constant `DEFAULT_DEPTH = 1`. -/
def DEFAULT_DEPTH : Nat := 1

/-! ## The prefix tree -/

/-- The struct `LetterNode`: the `children` map and the `isWord` flag. -/
inductive LetterNode where
  | mk (children : Rune → Option LetterNode) (isWord : Bool) : LetterNode

namespace LetterNode

/-- Field `children`. -/
def children : LetterNode → Rune → Option LetterNode
  | mk c _ => c

/-- Field `isWord`. -/
def isWord : LetterNode → Bool
  | mk _ w => w

/-- The freshly allocated node `&LetterNode{make(map[rune]*LetterNode), false}`. -/
def fresh : LetterNode := mk (fun _ => none) false

end LetterNode

/-- The struct `Trie`: the `root` pointer (`none` is nil) and the `depth`. -/
structure Trie where
  root : Option LetterNode
  depth : Nat

/-- The body of `Insert` from a given node: the loop over the runes of the word,
creating each missing child, then the marking of the last node reached. -/
def insertNode : LetterNode → List Rune → LetterNode
  | node, [] => if node.isWord then node else LetterNode.mk node.children true
  | node, char :: rest =>
    let child := match node.children char with
      | some n => n
      | none => LetterNode.fresh
    LetterNode.mk (Function.update node.children char (some (insertNode child rest)))
      node.isWord

/-- The walk of `SearchDirect` from a given node. -/
def searchNode : LetterNode → List Rune → Bool
  | node, [] => node.isWord
  | node, char :: rest =>
    match node.children char with
    | none => false
    | some n => searchNode n rest

/-- The method `Insert`: creates the root when it is nil, then inserts from it. -/
def Trie.Insert (t : Trie) (word : GoString) : Trie :=
  let root := match t.root with
    | some n => n
    | none => LetterNode.fresh
  { t with root := some (insertNode root (runes word)) }

/-- The method `SearchDirect`; `none` is the panic of reading through a nil root. -/
def Trie.SearchDirect (t : Trie) (word : GoString) : Option Bool :=
  match t.root with
  | none => none
  | some n => some (searchNode n (runes word))

/-! ## The variation generator -/

/-- The byte `word[i]`; every index the generator uses is within bounds. -/
def byteAt (word : GoString) (i : Nat) : Byte := word.getD i 0

/-- The "Deletes" loop: appends `word[:i]+word[i+1:]` for `i` from `0` to `len(word)-1`. -/
def deletes (word : GoString) (result : List GoString) : List GoString :=
  (List.range word.length).foldl
    (fun result i => result ++ [word.take i ++ word.drop (i + 1)]) result

/-- The "Transposes" loop: appends
`word[:i]+string(word[i+1])+string(word[i])+word[i+2:]` for `i` from `0` to
`len(word)-2`; `string(b)` of a byte is the UTF-8 encoding of the code point `b`. -/
def transposes (word : GoString) (result : List GoString) : List GoString :=
  (List.range (word.length - 1)).foldl
    (fun result i => result ++
      [word.take i ++ stringOfRune (byteAt word (i + 1)).val ++ stringOfRune (byteAt word i).val
        ++ word.drop (i + 2)]) result

/-- The "Replaces" loop: for each position and each rune `c` of the alphabet
appends `word[:i]+string(c)+word[i+1:]`. -/
def replaces (word : GoString) (result : List GoString) : List GoString :=
  (List.range word.length).foldl
    (fun result i => (runes DEFAULT_ALPHABET).foldl
      (fun result c => result ++ [word.take i ++ stringOfRune c ++ word.drop (i + 1)]) result)
    result

/-- The "Inserts" loop: for each position up to `len(word)` and each rune `c` of
the alphabet appends `word[:i]+string(c)+word[i:]`. -/
def inserts (word : GoString) (result : List GoString) : List GoString :=
  (List.range (word.length + 1)).foldl
    (fun result i => (runes DEFAULT_ALPHABET).foldl
      (fun result c => result ++ [word.take i ++ stringOfRune c ++ word.drop i]) result)
    result

/-- The value of `result` when the four edit loops are done, before the recursive
pass and before deduplication. -/
def baseVariations (word : GoString) : List GoString :=
  inserts word (replaces word (transposes word (deletes word [])))

/-- The function `clearSuggestions`: `encountered` holds the keys set to true. -/
def clearSuggestions (suggestions : List GoString) : List GoString :=
  (suggestions.foldl
    (fun (st : List GoString × List GoString) suggestion =>
      if suggestion ∈ st.1 then st else (suggestion :: st.1, st.2 ++ [suggestion]))
    ([], [])).2

/-- The function `generateVariations`.  The recursive pass ranges over the slice as
it was when the loop started, so only the base candidates are expanded. -/
def generateVariations (word : GoString) : Nat → List GoString
  | 0 => []
  | depth + 1 =>
    if word.length = 0 then []
    else
      let result := baseVariations word
      clearSuggestions
        (result.foldl (fun acc variation => acc ++ generateVariations variation depth) result)

/-! ## Lookup with fallback -/

/-- The loop of `Search` over the generated suggestions: keeps those that
`SearchDirect` finds, in order. -/
def validSuggestions (t : Trie) : List GoString → List GoString → Option (List GoString)
  | [], valid => some valid
  | suggestion :: rest, valid =>
    match t.SearchDirect suggestion with
    | none => none
    | some found => validSuggestions t rest (if found then valid ++ [suggestion] else valid)

/-- The walk of `Search` from a given node: at the first missing child the
suggestions for the whole word are returned with `false`, and when the runes are
exhausted the flag of the node reached is returned with no suggestion. -/
def searchWalk (t : Trie) (word : GoString) : LetterNode → List Rune →
    Option (Bool × List GoString)
  | node, [] => some (node.isWord, [])
  | node, char :: rest =>
    match node.children char with
    | none =>
      match validSuggestions t (generateVariations word t.depth) [] with
      | none => none
      | some valid => some (false, valid)
    | some n => searchWalk t word n rest

/-- The method `Search`; `none` is the panic of reading through a nil root. -/
def Trie.Search (t : Trie) (word : GoString) : Option (Bool × List GoString) :=
  match t.root with
  | none => none
  | some n => searchWalk t word n (runes word)

/-- The trie built by the first statement of `New`: a fresh root and the given
depth (`New` itself passes `DEFAULT_DEPTH`); the words are then fed by `Insert`. -/
def newTrie (depth : Nat) : Trie := ⟨some LetterNode.fresh, depth⟩

/-- A sequence of `Insert` calls, as made by `InsertReader` for each line. -/
def insertAll (t : Trie) (words : List GoString) : Trie :=
  words.foldl Trie.Insert t

/-! ## The edit families as the specification words them -/

/-- Specification, deletions: for each position `i` in `[0, len(word))`, the word
with character `i` removed. -/
def specDeletions (word : GoString) : List GoString :=
  (List.range word.length).map (fun i => word.eraseIdx i)

/-- The word with characters `i` and `i+1` swapped. -/
def swapAdjacent (word : GoString) (i : Nat) : GoString :=
  (word.set i (byteAt word (i + 1))).set (i + 1) (byteAt word i)

/-- Specification, transpositions: for each position `i` in `[0, len(word)-1)`, the
word with characters `i` and `i+1` swapped. -/
def specTranspositions (word : GoString) : List GoString :=
  (List.range (word.length - 1)).map (swapAdjacent word)

/-- Specification, substitutions: for each position `i` in `[0, len(word))` and each
letter `c` of the alphabet, the word with character `i` replaced by `c`. -/
def specSubstitutions (word : GoString) : List GoString :=
  (List.range word.length).flatMap (fun i => DEFAULT_ALPHABET.map (fun c => word.set i c))

/-- Specification, insertions: for each position `i` in `[0, len(word)]` and each
letter `c` of the alphabet, the word with `c` inserted before position `i`. -/
def specInsertions (word : GoString) : List GoString :=
  (List.range (word.length + 1)).flatMap
    (fun i => DEFAULT_ALPHABET.map (fun c => word.insertIdx i c))

/-- Specification, deduplication: the distinct members of a list, each once, in
the order of their first occurrence. -/
def firstOccurrences : List GoString → List GoString
  | [] => []
  | a :: l => a :: (firstOccurrences l).filter (fun b => decide (b ≠ a))

/-- The single-character edits of a word as the specification lists them: the
deletions, the adjacent transpositions, the substitutions by a letter a-z and the
insertions of a letter a-z. -/
def singleEdits (word : GoString) : List GoString :=
  specDeletions word ++ specTranspositions word ++ specSubstitutions word
    ++ specInsertions word

/-- The test that `s` is obtained from `word` by a chain of exactly `k` single
edits. -/
def editChain : Nat → GoString → GoString → Bool
  | 0, word, s => decide (s = word)
  | k + 1, word, s => (singleEdits word).any (fun m => editChain k m s)

/-- The test that `s` is obtained from `word` by a chain of at least 1 and at most
`d` single edits. -/
def withinEdits (d : Nat) (word s : GoString) : Bool :=
  (List.range d).any (fun j => editChain (j + 1) word s)

/-! ## Execution with a bound on the depth of the call stack -/

/-- The statement `result = append(result, more...)` when both the loop so far and
the nested call have returned. -/
def appendReturned : Option (List GoString) → Option (List GoString) →
    Option (List GoString)
  | some result, some more => some (result ++ more)
  | _, _ => none

/-- The function `generateVariations` with its `int` depth, run with at most `fuel`
nested calls; `none` means that the bound was reached before the call returned. -/
def generateVariationsFuel : Nat → GoString → Int → Option (List GoString)
  | 0, _, _ => none
  | fuel + 1, word, depth =>
    if depth = 0 ∨ word.length = 0 then some []
    else
      ((baseVariations word).foldl
        (fun acc variation =>
          appendReturned acc (generateVariationsFuel fuel variation (depth - 1)))
        (some (baseVariations word))).map clearSuggestions

/-- The walk of `Search` with the generator run under the bound `fuel`; the outer
`none` means that the bound was reached, the inner one is the panic. -/
def searchWalkFuel (fuel : Nat) (t : Trie) (word : GoString) : LetterNode → List Rune →
    Option (Option (Bool × List GoString))
  | node, [] => some (some (node.isWord, []))
  | node, char :: rest =>
    match node.children char with
    | none =>
      match generateVariationsFuel fuel word t.depth with
      | none => none
      | some suggestions =>
        match validSuggestions t suggestions [] with
        | none => some none
        | some valid => some (some (false, valid))
    | some n => searchWalkFuel fuel t word n rest

/-- The method `Search` with the generator run under the bound `fuel`. -/
def Trie.SearchFuel (fuel : Nat) (t : Trie) (word : GoString) :
    Option (Option (Bool × List GoString)) :=
  match t.root with
  | none => some none
  | some n => searchWalkFuel fuel t word n (runes word)

/-- The walk of `Search` and `SearchDirect` fails: some rune of the word has no
matching child on the path from the given node. -/
def walkFails : LetterNode → List Rune → Bool
  | _, [] => false
  | node, char :: rest =>
    match node.children char with
    | none => true
    | some n => walkFails n rest

/-! ## Lemmas on the prefix tree -/

@[simp] theorem LetterNode.children_mk (c : Rune → Option LetterNode) (w : Bool) :
    (LetterNode.mk c w).children = c := rfl

@[simp] theorem LetterNode.isWord_mk (c : Rune → Option LetterNode) (w : Bool) :
    (LetterNode.mk c w).isWord = w := rfl

theorem LetterNode.eta (n : LetterNode) : LetterNode.mk n.children n.isWord = n := by
  cases n; rfl

/-- Nothing is found below a fresh node. -/
theorem searchNode_fresh (rs : List Rune) : searchNode LetterNode.fresh rs = false := by
  cases rs <;> simp [searchNode, LetterNode.fresh]

/-- The word just inserted is found. -/
theorem searchNode_insertNode_self (rs : List Rune) :
    ∀ node : LetterNode, searchNode (insertNode node rs) rs = true := by
  induction rs with
  | nil =>
    intro node
    by_cases h : node.isWord = true <;> simp [insertNode, searchNode, h]
  | cons c rest ih =>
    intro node
    simp [insertNode, searchNode, ih]

/-- Inserting one rune sequence leaves the lookup of every other one unchanged. -/
theorem searchNode_insertNode_ne (rs : List Rune) :
    ∀ (node : LetterNode) (qs : List Rune), qs ≠ rs →
      searchNode (insertNode node rs) qs = searchNode node qs := by
  induction rs with
  | nil =>
    intro node qs hne
    cases qs with
    | nil => exact absurd rfl hne
    | cons q qs =>
      by_cases h : node.isWord = true <;> simp [insertNode, searchNode, h]
  | cons c rest ih =>
    intro node qs hne
    cases qs with
    | nil => simp [insertNode, searchNode]
    | cons q qs =>
      by_cases hq : q = c
      · subst hq
        have hne2 : qs ≠ rest := fun h => hne (by rw [h])
        cases hc : node.children q with
        | none => simp [insertNode, searchNode, hc, ih _ _ hne2, searchNode_fresh]
        | some n => simp [insertNode, searchNode, hc, ih _ _ hne2]
      · simp [insertNode, searchNode, Function.update_noteq hq]

/-- Inserting a rune sequence that is already marked rebuilds the same node. -/
theorem insertNode_of_searchNode (rs : List Rune) :
    ∀ node : LetterNode, searchNode node rs = true → insertNode node rs = node := by
  induction rs with
  | nil =>
    intro node h
    simp [searchNode] at h
    simp [insertNode, h]
  | cons c rest ih =>
    intro node h
    cases hc : node.children c with
    | none => simp [searchNode, hc] at h
    | some n =>
      simp [searchNode, hc] at h
      simp only [insertNode, hc, ih n h]
      rw [← hc, Function.update_eq_self]
      exact LetterNode.eta node

/-- The lookup after an insertion, in terms of the lookup before it. -/
theorem searchNode_insertNode (node : LetterNode) (rs qs : List Rune) :
    searchNode (insertNode node rs) qs = (decide (qs = rs) || searchNode node qs) := by
  by_cases h : qs = rs
  · subst h; simp [searchNode_insertNode_self]
  · simp [h, searchNode_insertNode_ne rs node qs h]

theorem Trie.Insert_root (t : Trie) (w : GoString) :
    ∃ n, (t.Insert w).root = some n := ⟨_, rfl⟩

theorem Trie.Insert_nil_root (depth : Nat) (w : GoString) :
    (Trie.mk none depth).Insert w = (newTrie depth).Insert w := rfl

/-- Lookup after a sequence of insertions into a trie that has a root. -/
theorem searchDirect_after_inserts (words : List GoString) :
    ∀ (n : LetterNode) (depth : Nat) (w : GoString),
      (insertAll ⟨some n, depth⟩ words).SearchDirect w
        = some (decide (runes w ∈ words.map runes) || searchNode n (runes w)) := by
  induction words with
  | nil => intro n depth w; simp [insertAll, Trie.SearchDirect]
  | cons x xs ih =>
    intro n depth w
    have h : insertAll ⟨some n, depth⟩ (x :: xs)
        = insertAll ⟨some (insertNode n (runes x)), depth⟩ xs := rfl
    rw [h, ih, searchNode_insertNode]
    by_cases h1 : runes w = runes x <;> simp [h1]

/-- Every iteration of `range` over a string consumes at least one byte. -/
theorem decodeRune_width_pos (s : GoString) : 1 ≤ (decodeRune s).2 := by
  unfold decodeRune
  repeat' split
  all_goals first
    | (simp; done)
    | (simp only []; split <;> simp)

/-- One more unrolling than the length of the string changes nothing. -/
theorem runesAux_succ (fuel : Nat) :
    ∀ s : GoString, s.length ≤ fuel → runesAux (fuel + 1) s = runesAux fuel s := by
  induction fuel with
  | zero =>
    intro s hlen
    have : s = [] := List.length_eq_zero.mp (Nat.le_zero.mp hlen)
    subst this; rfl
  | succ fuel ih =>
    intro s hlen
    cases s with
    | nil => rfl
    | cons b rest =>
      have hw := decodeRune_width_pos (b :: rest)
      have hdrop : ((b :: rest).drop (decodeRune (b :: rest)).2).length ≤ fuel := by
        rw [List.length_drop]
        simp only [List.length_cons] at hlen ⊢
        omega
      simp only [runesAux]
      rw [ih _ hdrop]

/-- The loop of `runes` never runs out of iterations: any larger bound yields the
same runes. -/
theorem runesAux_of_le (s : GoString) (fuel : Nat) (hlen : s.length ≤ fuel) :
    runesAux fuel s = runes s := by
  induction fuel with
  | zero =>
    have : s = [] := List.length_eq_zero.mp (Nat.le_zero.mp hlen)
    subst this; rfl
  | succ fuel ih =>
    by_cases h : s.length ≤ fuel
    · rw [runesAux_succ fuel s h, ih h]
    · have : s.length = fuel + 1 := by omega
      rw [← this]; rfl

/-- On a string of ASCII bytes `range` yields the bytes themselves. -/
theorem runesAux_ascii (fuel : Nat) :
    ∀ s : GoString, s.length ≤ fuel → (∀ b ∈ s, b.val < 0x80) →
      runesAux fuel s = s.map Fin.val := by
  induction fuel with
  | zero =>
    intro s hlen _
    have : s = [] := List.length_eq_zero.mp (Nat.le_zero.mp hlen)
    subst this; rfl
  | succ fuel ih =>
    intro s hlen hs
    cases s with
    | nil => rfl
    | cons b rest =>
      have hb : b.val < 0x80 := hs b (List.mem_cons_self _ _)
      have hd : decodeRune (b :: rest) = (b.val, 1) := by simp [decodeRune, hb]
      have hrest : ∀ c ∈ rest, c.val < 0x80 := fun c hc => hs c (List.mem_cons_of_mem _ hc)
      simp only [runesAux, hd, List.drop_succ_cons, List.drop_zero, List.map_cons]
      rw [ih rest (Nat.le_of_succ_le_succ hlen) hrest]

theorem runes_ascii (s : GoString) (hs : ∀ b ∈ s, b.val < 0x80) :
    runes s = s.map Fin.val :=
  runesAux_ascii s.length s (Nat.le_refl _) hs

/-- Two ASCII strings with the same runes are the same string. -/
theorem runes_ascii_inj (s u : GoString) (hs : ∀ b ∈ s, b.val < 0x80)
    (hu : ∀ b ∈ u, b.val < 0x80) (h : runes s = runes u) : s = u := by
  rw [runes_ascii s hs, runes_ascii u hu] at h
  exact List.map_injective_iff.mpr Fin.val_injective h

/-! ## Lemmas on the lookup with fallback -/

/-- With a root in place the suggestion loop never fails and is a filter. -/
theorem validSuggestions_root (t : Trie) (n : LetterNode) (hroot : t.root = some n) :
    ∀ (l valid : List GoString),
      validSuggestions t l valid
        = some (valid ++ l.filter (fun s => searchNode n (runes s))) := by
  intro l
  induction l with
  | nil => intro valid; simp [validSuggestions]
  | cons x xs ih =>
    intro valid
    by_cases hx : searchNode n (runes x) = true
    · simp [validSuggestions, Trie.SearchDirect, hroot, ih, hx]
    · simp [validSuggestions, Trie.SearchDirect, hroot, ih, hx]

/-- A walk along a marked path reports the hit and no suggestion. -/
theorem searchWalk_of_searchNode (t : Trie) (word : GoString) (rs : List Rune) :
    ∀ node : LetterNode, searchNode node rs = true →
      searchWalk t word node rs = some (true, []) := by
  induction rs with
  | nil => intro node h; simp [searchNode] at h; simp [searchWalk, h]
  | cons c rest ih =>
    intro node h
    cases hc : node.children c with
    | none => simp [searchNode, hc] at h
    | some n =>
      simp [searchNode, hc] at h
      simp [searchWalk, hc, ih n h]

/-- Whatever the walk returns, its suggestions were confirmed by `SearchDirect`. -/
theorem searchWalk_suggestions (t : Trie) (n0 : LetterNode) (hroot : t.root = some n0)
    (word : GoString) (rs : List Rune) :
    ∀ (node : LetterNode) (found : Bool) (suggestions : List GoString),
      searchWalk t word node rs = some (found, suggestions) →
        ∀ s ∈ suggestions, searchNode n0 (runes s) = true := by
  induction rs with
  | nil =>
    intro node found suggestions h s hs
    simp [searchWalk] at h
    rw [h.2] at hs
    simp at hs
  | cons c rest ih =>
    intro node found suggestions h s hs
    cases hc : node.children c with
    | none =>
      simp [searchWalk, hc, validSuggestions_root t n0 hroot] at h
      rw [← h.2] at hs
      exact (List.mem_filter.mp hs).2
    | some n =>
      simp only [searchWalk, hc] at h
      exact ih n found suggestions h s hs

/-- With depth 0 the walk returns the flag found by `SearchDirect` and no suggestion. -/
theorem searchWalk_depth_zero (t : Trie) (hdepth : t.depth = 0) (word : GoString) (rs : List Rune) :
    ∀ node : LetterNode, searchWalk t word node rs = some (searchNode node rs, []) := by
  induction rs with
  | nil => intro node; simp [searchWalk, searchNode]
  | cons c rest ih =>
    intro node
    cases hc : node.children c with
    | none =>
      simp [searchWalk, searchNode, hc, hdepth, generateVariations, validSuggestions]
    | some n => simp [searchWalk, searchNode, hc, ih n]

/-- The empty string has no rune, and every other string has one. -/
theorem runes_eq_nil_iff (w : GoString) : runes w = [] ↔ w = [] := by
  cases w with
  | nil => simp [runes, runesAux]
  | cons b rest => simp [runes, runesAux]

/-! ## The claims -/

/-- C1 (as stated, refuted): after `Insert` of the Latin-1 bytes of "café" alone,
`SearchDirect` of the Latin-1 bytes of "cafè", which was never inserted, is true:
both final bytes are invalid UTF-8 and are read as the rune `U+FFFD`. -/
theorem searchDirect_true_for_word_never_inserted :
    (insertAll (newTrie 1) [[99, 97, 102, 0xE9]]).SearchDirect [99, 97, 102, 0xE8] = some true
      ∧ ([99, 97, 102, 0xE8] : GoString) ∉ [([99, 97, 102, 0xE9] : GoString)] := by
  decide

/-- C1 (amended): after any sequence of `Insert` calls on a trie created empty,
`SearchDirect w` returns, and returns true exactly when `w` is read by `range` as
the same rune sequence as one of the inserted words; the same holds from a trie
without root after at least one insertion; and among ASCII words `SearchDirect w`
is true exactly when `w` itself was inserted. -/
theorem searchDirect_insertAll (depth : Nat) (words : List GoString) (w : GoString) :
    (insertAll (newTrie depth) words).SearchDirect w
        = some (decide (runes w ∈ words.map runes))
      ∧ (∀ x : GoString, (insertAll ⟨none, depth⟩ (x :: words)).SearchDirect w
        = some (decide (runes w ∈ (x :: words).map runes)))
      ∧ ((∀ x ∈ w :: words, ∀ b ∈ x, b.val < 0x80) →
          ((insertAll (newTrie depth) words).SearchDirect w = some true ↔ w ∈ words)) := by
  have key : ∀ ws : List GoString, (insertAll (newTrie depth) ws).SearchDirect w
      = some (decide (runes w ∈ ws.map runes)) := by
    intro ws
    have h := searchDirect_after_inserts ws LetterNode.fresh depth w
    rw [searchNode_fresh] at h
    simpa [newTrie] using h
  refine ⟨key words, fun x => ?_, fun hascii => ?_⟩
  · have h : insertAll ⟨none, depth⟩ (x :: words) = insertAll (newTrie depth) (x :: words) := rfl
    rw [h, key]
  · rw [key]
    simp only [Option.some.injEq, decide_eq_true_eq, List.mem_map]
    constructor
    · rintro ⟨x, hx, hrx⟩
      have hxw : x = w :=
        runes_ascii_inj x w (hascii x (List.mem_cons_of_mem _ hx))
          (hascii w (List.mem_cons_self _ _)) hrx
      exact hxw ▸ hx
    · intro hw
      exact ⟨w, hw, rfl⟩

/-- Witness for C1 (amended): the dictionary "cat", "bat" and the query "cat". -/
theorem searchDirect_insertAll_witness :
    (insertAll (newTrie 1) [[99, 97, 116], [98, 97, 116]]).SearchDirect [99, 97, 116] = some true
      ↔ ([99, 97, 116] : GoString) ∈ [([99, 97, 116] : GoString), [98, 97, 116]] :=
  (searchDirect_insertAll 1 [[99, 97, 116], [98, 97, 116]] [99, 97, 116]).2.2 (by simp; decide)

/-- C2 (as stated, refuted): on a trie created empty, `Insert` of the byte `0xFF`
turns `SearchDirect` of the different word `0xFE` from false to true; and on a
trie without root `SearchDirect "a"` does not return before `Insert "c"` and
returns false after it. -/
theorem insert_changes_other_word :
    ([0xFE] : GoString) ≠ [0xFF]
      ∧ (newTrie 1).SearchDirect [0xFE] = some false
      ∧ ((newTrie 1).Insert [0xFF]).SearchDirect [0xFE] = some true
      ∧ ([97] : GoString) ≠ [99]
      ∧ (Trie.mk none 1).SearchDirect [97] = none
      ∧ ((Trie.mk none 1).Insert [99]).SearchDirect [97] = some false := by
  decide

/-- C2 (amended): for every trie and all words `v` and `w`, a word `v` that
`SearchDirect` finds is still found after `Insert w` (nothing present becomes
absent, whatever `v` and `w`); and for words `v` and `w` that `range` reads as
different rune sequences, `SearchDirect v` is true after `Insert w` exactly when
it was true before, and on a trie that has its root it returns the same value
after as before; so inserting "cat" does not make "ca" present. -/
theorem searchDirect_insert_other (t : Trie) (v w : GoString) :
    (t.SearchDirect v = some true → (t.Insert w).SearchDirect v = some true)
      ∧ (runes v ≠ runes w →
          ((t.Insert w).SearchDirect v = some true ↔ t.SearchDirect v = some true)
            ∧ (t.root ≠ none → (t.Insert w).SearchDirect v = t.SearchDirect v)) := by
  refine ⟨fun h => ?_, fun hvw => ?_⟩
  · cases hr : t.root with
    | none => simp [Trie.SearchDirect, hr] at h
    | some n =>
      simp [Trie.SearchDirect, hr] at h
      simp [Trie.Insert, Trie.SearchDirect, hr, searchNode_insertNode, h]
  · cases hr : t.root with
    | none =>
      simp [Trie.Insert, Trie.SearchDirect, hr,
        searchNode_insertNode_ne (runes w) LetterNode.fresh (runes v) hvw, searchNode_fresh]
    | some n =>
      simp [Trie.Insert, Trie.SearchDirect, hr,
        searchNode_insertNode_ne (runes w) n (runes v) hvw]

/-- Witness for C2 (amended): the stored word `0xFE` stays present when `0xFF`, which
has the same runes, is inserted; and "ca" stays absent when "cat" is inserted
next to "bat". -/
theorem searchDirect_insert_other_witness :
    (((newTrie 1).Insert [0xFE]).Insert [0xFF]).SearchDirect [0xFE] = some true
      ∧ ((((newTrie 1).Insert [98, 97, 116]).Insert [99, 97, 116]).SearchDirect [99, 97]
            = some true
          ↔ ((newTrie 1).Insert [98, 97, 116]).SearchDirect [99, 97] = some true)
      ∧ (((newTrie 1).Insert [98, 97, 116]).Insert [99, 97, 116]).SearchDirect [99, 97]
          = ((newTrie 1).Insert [98, 97, 116]).SearchDirect [99, 97] :=
  ⟨(searchDirect_insert_other ((newTrie 1).Insert [0xFE]) [0xFE] [0xFF]).1 (by decide),
   ((searchDirect_insert_other ((newTrie 1).Insert [98, 97, 116]) [99, 97] [99, 97, 116]).2
      (by decide)).1,
   ((searchDirect_insert_other ((newTrie 1).Insert [98, 97, 116]) [99, 97] [99, 97, 116]).2
      (by decide)).2 (by simp [Trie.Insert])⟩

/-- C3: `Insert w` twice yields the same trie as `Insert w` once, and `Insert w` on
a trie in which `w` is already marked returns the trie unchanged. -/
theorem insert_idempotent (t : Trie) (w : GoString) :
    (t.Insert w).Insert w = t.Insert w
      ∧ (t.SearchDirect w = some true → t.Insert w = t) := by
  have h2 : t.SearchDirect w = some true → t.Insert w = t := by
    intro h
    cases t with
    | mk root depth =>
      cases root with
      | none => simp [Trie.SearchDirect] at h
      | some n =>
        simp [Trie.SearchDirect] at h
        simp [Trie.Insert, insertNode_of_searchNode (runes w) n h]
  refine ⟨?_, h2⟩
  cases t with
  | mk root depth =>
    cases root with
    | none =>
      simp [Trie.Insert,
        insertNode_of_searchNode (runes w) _ (searchNode_insertNode_self (runes w) _)]
    | some n =>
      simp [Trie.Insert,
        insertNode_of_searchNode (runes w) _ (searchNode_insertNode_self (runes w) _)]

/-- Witness for C3: "cat" inserted into a trie that already holds "cat". -/
theorem insert_idempotent_witness :
    (((newTrie 1).Insert [99, 97, 116]).Insert [99, 97, 116]).Insert [99, 97, 116]
        = ((newTrie 1).Insert [99, 97, 116]).Insert [99, 97, 116]
      ∧ ((newTrie 1).Insert [99, 97, 116]).Insert [99, 97, 116]
        = (newTrie 1).Insert [99, 97, 116] :=
  ⟨(insert_idempotent ((newTrie 1).Insert [99, 97, 116]) [99, 97, 116]).1,
   (insert_idempotent ((newTrie 1).Insert [99, 97, 116]) [99, 97, 116]).2 (by decide)⟩

/-- C4: when `SearchDirect w` is true, `Search w` returns true and no suggestion,
whatever the depth. -/
theorem search_of_present (t : Trie) (w : GoString) (h : t.SearchDirect w = some true) :
    t.Search w = some (true, []) := by
  cases hr : t.root with
  | none => simp [Trie.SearchDirect, hr] at h
  | some n =>
    simp [Trie.SearchDirect, hr] at h
    simp [Trie.Search, hr, searchWalk_of_searchNode t w (runes w) n h]

/-- Witness for C4: "cat" in the dictionary "cat", "bat" with depth 2. -/
theorem search_of_present_witness :
    (insertAll (newTrie 2) [[99, 97, 116], [98, 97, 116]]).Search [99, 97, 116]
      = some (true, []) :=
  search_of_present (insertAll (newTrie 2) [[99, 97, 116], [98, 97, 116]]) [99, 97, 116]
    (by decide)

/-- C5: every suggestion returned by `Search w` is a word for which `SearchDirect`
returns true on the same trie. -/
theorem search_suggestions_confirmed (t : Trie) (w : GoString) (found : Bool)
    (suggestions : List GoString) (h : t.Search w = some (found, suggestions))
    (s : GoString) (hs : s ∈ suggestions) : t.SearchDirect s = some true := by
  cases hr : t.root with
  | none => simp [Trie.Search, hr] at h
  | some n =>
    simp only [Trie.Search, hr] at h
    simp [Trie.SearchDirect, hr,
      searchWalk_suggestions t n hr w (runes w) n found suggestions h s hs]

/-- Witness for C5: the dictionary "cat", "bat" queried with "rat". -/
theorem search_suggestions_confirmed_witness :
    (insertAll (newTrie 1) [[99, 97, 116], [98, 97, 116]]).Search [114, 97, 116]
        = some (false, [[98, 97, 116], [99, 97, 116]])
      ∧ (insertAll (newTrie 1) [[99, 97, 116], [98, 97, 116]]).SearchDirect [99, 97, 116]
        = some true :=
  ⟨by decide,
   search_suggestions_confirmed (insertAll (newTrie 1) [[99, 97, 116], [98, 97, 116]])
     [114, 97, 116] false [[98, 97, 116], [99, 97, 116]] (by decide) [99, 97, 116] (by decide)⟩

/-- C6 (failing input): in the dictionary "cat" with depth 1 the query "ca" is not
present, the generator's candidates confirmed by `SearchDirect` are exactly
"cat", and `Search "ca"` returns false with no suggestion at all: the walk ends
on an unmarked node and the generator is never called. -/
theorem search_miss_on_prefix_returns_no_suggestion :
    (insertAll (newTrie 1) [[99, 97, 116]]).SearchDirect [99, 97] = some false
      ∧ (generateVariations [99, 97] 1).filter
          (fun s => decide ((insertAll (newTrie 1) [[99, 97, 116]]).SearchDirect s = some true))
        = [[99, 97, 116]]
      ∧ (insertAll (newTrie 1) [[99, 97, 116]]).Search [99, 97] = some (false, []) := by
  decide

/-- C7 (failing input): in the dictionary "word" with depth 1 the query "wor" is
one deletion away from the stored word "word" and is not stored itself, yet
`Search "wor"` returns no suggestion. -/
theorem search_single_deletion_not_recalled :
    ([119, 111, 114] : GoString) ∈ deletes [119, 111, 114, 100] []
      ∧ (insertAll (newTrie 1) [[119, 111, 114, 100]]).SearchDirect [119, 111, 114, 100]
        = some true
      ∧ (insertAll (newTrie 1) [[119, 111, 114, 100]]).SearchDirect [119, 111, 114]
        = some false
      ∧ (insertAll (newTrie 1) [[119, 111, 114, 100]]).Search [119, 111, 114]
        = some (false, []) := by
  decide

/-- C8 (failing input): on a trie without root, whatever the depth and the word,
neither `SearchDirect` nor `Search` returns (both read through the nil root);
on a trie whose root was created and that received no insertion they return
false and false with no suggestion. -/
theorem search_on_trie_without_insertion (depth : Nat) (w : GoString) :
    (Trie.mk none depth).SearchDirect w = none
      ∧ (Trie.mk none depth).Search w = none
      ∧ (newTrie depth).SearchDirect w = some false
      ∧ (newTrie depth).Search w = some (false, []) := by
  refine ⟨rfl, rfl, ?_, ?_⟩
  · simp [newTrie, Trie.SearchDirect, searchNode_fresh]
  · cases hw : runes w with
    | nil => simp [newTrie, Trie.Search, hw, searchWalk, LetterNode.fresh]
    | cons c rest =>
      have hv := validSuggestions_root (newTrie depth) LetterNode.fresh rfl
        (generateVariations w (newTrie depth).depth) []
      simp only [searchNode_fresh, List.filter_false, List.append_nil, newTrie] at hv
      simp only [Trie.Search, newTrie, hw, searchWalk, LetterNode.fresh,
        LetterNode.children_mk] at hv ⊢
      rw [hv]

/-- C9 (failing input): the zero-value trie has depth 0 and no root; no word is
present in it, and `Search w` does not return false with no suggestion: it reads
through the nil root and panics, as `SearchDirect w` does.  On a trie of depth 0
that has its root, `Search w` returns the flag of the node reached by the walk
(false for a word that is not present) and no suggestion. -/
theorem search_depth_zero_nil_root (w : GoString) (n : LetterNode) :
    (Trie.mk none 0).depth = 0
      ∧ (Trie.mk none 0).Search w = none
      ∧ (Trie.mk none 0).SearchDirect w = none
      ∧ (Trie.mk (some n) 0).SearchDirect w = some (searchNode n (runes w))
      ∧ (Trie.mk (some n) 0).Search w = some (searchNode n (runes w), []) := by
  refine ⟨rfl, rfl, rfl, rfl, ?_⟩
  simp [Trie.Search, searchWalk_depth_zero ⟨some n, 0⟩ rfl w (runes w) n]

/-- On a trie of depth 0 that has its root, when `SearchDirect w` is false, `Search w`
returns false and no suggestion. -/
theorem search_depth_zero (t : Trie) (w : GoString) (hdepth : t.depth = 0)
    (h : t.SearchDirect w = some false) : t.Search w = some (false, []) := by
  cases hr : t.root with
  | none => simp [Trie.SearchDirect, hr] at h
  | some n =>
    simp [Trie.SearchDirect, hr] at h
    simp [Trie.Search, hr, searchWalk_depth_zero t hdepth w (runes w) n, h]

/-- The dictionary "cat" with depth 0 queried with "rat". -/
theorem search_depth_zero_witness :
    (insertAll (newTrie 0) [[99, 97, 116]]).Search [114, 97, 116] = some (false, []) :=
  search_depth_zero (insertAll (newTrie 0) [[99, 97, 116]]) [114, 97, 116] rfl (by decide)

/-! ## Lemmas on the generator -/

/-- A loop that appends one element per iteration builds a `map`. -/
theorem foldl_append_singleton {α β : Type} (f : α → β) (l : List α) :
    ∀ init : List β, l.foldl (fun result i => result ++ [f i]) init = init ++ l.map f := by
  induction l with
  | nil => intro init; simp
  | cons x xs ih => intro init; simp [ih]

/-- A loop that appends a block per iteration builds a `flatMap`. -/
theorem foldl_append_block {α β : Type} (g : α → List β) (l : List α) :
    ∀ init : List β, l.foldl (fun result i => result ++ g i) init = init ++ l.flatMap g := by
  induction l with
  | nil => intro init; simp
  | cons x xs ih => intro init; simp [ih]

theorem runes_DEFAULT_ALPHABET : runes DEFAULT_ALPHABET = DEFAULT_ALPHABET.map Fin.val := by
  decide

/-- The conversion `string(b)` of an ASCII byte is the one-byte string `b`. -/
theorem stringOfRune_ascii (b : Byte) (hb : b.val < 0x80) : stringOfRune b.val = [b] := by
  have h : (Fin.ofNat b.val : Fin 256) = b := by
    apply Fin.ext
    simp [Fin.ofNat, Nat.mod_eq_of_lt b.isLt]
  simp [stringOfRune, hb, h]

theorem DEFAULT_ALPHABET_ascii : ∀ c ∈ DEFAULT_ALPHABET, c.val < 0x80 := by
  decide

theorem deletes_eq (word : GoString) (result : List GoString) :
    deletes word result
      = result ++ (List.range word.length).map (fun i => word.take i ++ word.drop (i + 1)) := by
  simp only [deletes]
  exact foldl_append_singleton _ _ result

theorem transposes_eq (word : GoString) (result : List GoString) :
    transposes word result
      = result ++ (List.range (word.length - 1)).map
          (fun i => word.take i ++ stringOfRune (byteAt word (i + 1)).val
            ++ stringOfRune (byteAt word i).val ++ word.drop (i + 2)) := by
  simp only [transposes]
  exact foldl_append_singleton _ _ result

/-- The inner loop over the alphabet of "Replaces" and "Inserts". -/
theorem alphabet_loop (pre post : GoString) (result : List GoString) :
    (runes DEFAULT_ALPHABET).foldl (fun result c => result ++ [pre ++ stringOfRune c ++ post])
        result
      = result ++ DEFAULT_ALPHABET.map (fun c => pre ++ c :: post) := by
  rw [foldl_append_singleton, runes_DEFAULT_ALPHABET, List.map_map]
  congr 1
  apply List.map_congr_left
  intro c hc
  simp [stringOfRune_ascii c (DEFAULT_ALPHABET_ascii c hc)]

theorem replaces_eq (word : GoString) (result : List GoString) :
    replaces word result
      = result ++ (List.range word.length).flatMap
          (fun i => DEFAULT_ALPHABET.map (fun c => word.take i ++ c :: word.drop (i + 1))) := by
  simp only [replaces, alphabet_loop]
  exact foldl_append_block _ _ result

theorem inserts_eq (word : GoString) (result : List GoString) :
    inserts word result
      = result ++ (List.range (word.length + 1)).flatMap
          (fun i => DEFAULT_ALPHABET.map (fun c => word.take i ++ c :: word.drop i)) := by
  simp only [inserts, alphabet_loop]
  exact foldl_append_block _ _ result

theorem length_flatMap_alphabet (f : Nat → Byte → GoString) (n : Nat) :
    ((List.range n).flatMap (fun i => DEFAULT_ALPHABET.map (f i))).length = 26 * n := by
  induction n with
  | zero => rfl
  | succ n ih =>
    rw [List.range_succ, List.flatMap_append, List.length_append, ih]
    simp [DEFAULT_ALPHABET]
    omega

theorem insertIdx_eq_take_drop (c : Byte) :
    ∀ (word : GoString) (i : Nat), i ≤ word.length →
      word.insertIdx i c = word.take i ++ c :: word.drop i := by
  intro word
  induction word with
  | nil => intro i hi; simp at hi; subst hi; simp
  | cons a t ih =>
    intro i hi
    cases i with
    | zero => simp
    | succ k =>
      simp only [List.insertIdx_succ_cons, List.take_succ_cons, List.drop_succ_cons,
        List.cons_append]
      rw [ih k (Nat.le_of_succ_le_succ hi)]

theorem set_set_eq_take_drop (x y : Byte) :
    ∀ (word : GoString) (i : Nat), i + 1 < word.length →
      (word.set i x).set (i + 1) y = word.take i ++ x :: y :: word.drop (i + 2) := by
  intro word
  induction word with
  | nil => intro i hi; simp at hi
  | cons a t ih =>
    intro i hi
    cases i with
    | zero =>
      cases t with
      | nil => simp at hi
      | cons b t2 => simp
    | succ k =>
      simp only [List.set_cons_succ, List.take_succ_cons, List.drop_succ_cons, List.cons_append]
      rw [ih k (by simpa using hi)]

/-- C10 (as stated, refuted): the word "é" is one character of two bytes; the
generator makes two deletions out of it and 133 candidates, not one deletion and
54*1+25, and its transposition candidate is the four bytes of "©Ã", not the
word with its bytes 0 and 1 swapped. -/
theorem transposes_non_ascii_not_a_swap :
    (runes [0xC3, 0xA9]).length = 1
      ∧ (deletes [0xC3, 0xA9] []).length = 2
      ∧ (baseVariations [0xC3, 0xA9]).length = 133
      ∧ transposes [0xC3, 0xA9] [] = [[0xC2, 0xA9, 0xC3, 0x83]]
      ∧ specTranspositions [0xC3, 0xA9] = [[0xA9, 0xC3]]
      ∧ transposes [0xC3, 0xA9] [] ≠ specTranspositions [0xC3, 0xA9] := by
  decide

/-- C10 (amended): for every non-empty word `w` of `n` bytes the candidate list
before deduplication is, in this order, the `n` deletions of one byte, `n-1`
transposition candidates, the `26*n` substitutions of one byte (position-major,
letters a to z) and the `26*(n+1)` insertions, `54*n+25` candidates in all; the
transposition candidate at position `i` is `w` with bytes `i` and `i+1` swapped
whenever both bytes are ASCII; at depth 1 the generator returns this list
deduplicated; for "cat" the deletions are "at", "ct", "ca", the transpositions
"act", "cta", and there are 78 substitutions and 104 insertions. -/
theorem baseVariations_families (w : GoString) (hw : w ≠ []) :
    baseVariations w = deletes w [] ++ transposes w [] ++ replaces w [] ++ inserts w []
      ∧ deletes w [] = specDeletions w
      ∧ (transposes w []).length = w.length - 1
      ∧ (∀ i, i + 1 < w.length → (byteAt w i).val < 0x80 → (byteAt w (i + 1)).val < 0x80 →
          (transposes w [])[i]? = some (swapAdjacent w i))
      ∧ replaces w [] = specSubstitutions w
      ∧ inserts w [] = specInsertions w
      ∧ (deletes w []).length = w.length
      ∧ (replaces w []).length = 26 * w.length
      ∧ (inserts w []).length = 26 * (w.length + 1)
      ∧ (baseVariations w).length = 54 * w.length + 25
      ∧ generateVariations w 1 = clearSuggestions (baseVariations w)
      ∧ deletes [99, 97, 116] [] = [[97, 116], [99, 116], [99, 97]]
      ∧ transposes [99, 97, 116] [] = [[97, 99, 116], [99, 116, 97]]
      ∧ (replaces [99, 97, 116] []).length = 78
      ∧ (inserts [99, 97, 116] []).length = 104 := by
  have hpos : 0 < w.length := List.length_pos.mpr hw
  have hbase : baseVariations w
      = deletes w [] ++ transposes w [] ++ replaces w [] ++ inserts w [] := by
    simp only [baseVariations]
    rw [inserts_eq, replaces_eq, transposes_eq, inserts_eq w [], replaces_eq w [],
      transposes_eq w []]
    simp
  have hdel : deletes w [] = specDeletions w := by
    rw [deletes_eq, specDeletions, List.nil_append]
    apply List.map_congr_left
    intro i _
    rw [List.eraseIdx_eq_take_drop_succ]
  have htrl : (transposes w []).length = w.length - 1 := by
    rw [transposes_eq]; simp
  have hrep : replaces w [] = specSubstitutions w := by
    rw [replaces_eq, specSubstitutions, List.nil_append]
    apply List.flatMap_congr
    intro i hi
    apply List.map_congr_left
    intro c _
    rw [List.set_eq_take_append_cons_drop, if_pos (List.mem_range.mp hi)]
  have hins : inserts w [] = specInsertions w := by
    rw [inserts_eq, specInsertions, List.nil_append]
    apply List.flatMap_congr
    intro i hi
    apply List.map_congr_left
    intro c _
    rw [insertIdx_eq_take_drop c w i (Nat.le_of_lt_succ (List.mem_range.mp hi))]
  have hdl : (deletes w []).length = w.length := by
    rw [deletes_eq]; simp
  have hrl : (replaces w []).length = 26 * w.length := by
    rw [replaces_eq, List.nil_append, length_flatMap_alphabet]
  have hil : (inserts w []).length = 26 * (w.length + 1) := by
    rw [inserts_eq, List.nil_append, length_flatMap_alphabet]
  refine ⟨hbase, hdel, htrl, ?_, hrep, hins, hdl, hrl, hil, ?_, ?_, by decide, by decide,
    by decide, by decide⟩
  · intro i hi h0 h1
    rw [transposes_eq, List.nil_append, List.getElem?_map, List.getElem?_range (by omega)]
    simp only [Option.map_some', swapAdjacent]
    rw [stringOfRune_ascii _ h0, stringOfRune_ascii _ h1, set_set_eq_take_drop _ _ w i hi]
    simp
  · rw [hbase]
    simp only [List.length_append, hdl, htrl, hrl, hil]
    omega
  · have hne : w.length ≠ 0 := Nat.pos_iff_ne_zero.mp hpos
    have hfold : ∀ l init : List GoString,
        l.foldl (fun acc (_ : GoString) => acc ++ ([] : List GoString)) init = init := by
      intro l
      induction l with
      | nil => intro init; rfl
      | cons x xs ih => intro init; simp
    simp only [generateVariations, hne, if_false, hfold]

/-- Witness for C10 (amended): the word "word". -/
theorem baseVariations_families_witness :
    (baseVariations [119, 111, 114, 100]).length = 54 * 4 + 25
      ∧ (transposes [119, 111, 114, 100] [])[1]? = some [119, 114, 111, 100] :=
  ⟨(baseVariations_families [119, 111, 114, 100] (by decide)).2.2.2.2.2.2.2.2.2.1,
   (baseVariations_families [119, 111, 114, 100] (by decide)).2.2.2.1 1 (by decide) (by decide)
     (by decide)⟩

/-! ## Lemmas on deduplication -/

theorem mem_firstOccurrences (l : List GoString) (x : GoString) :
    x ∈ firstOccurrences l ↔ x ∈ l := by
  induction l with
  | nil => simp [firstOccurrences]
  | cons a l ih =>
    by_cases hx : x = a
    · simp [firstOccurrences, hx]
    · simp [firstOccurrences, hx, List.mem_filter, ih]

theorem nodup_firstOccurrences (l : List GoString) : (firstOccurrences l).Nodup := by
  induction l with
  | nil => simp [firstOccurrences]
  | cons a l ih =>
    simp only [firstOccurrences, List.nodup_cons]
    exact ⟨by simp [List.mem_filter], ih.filter _⟩

/-- The loop of `clearSuggestions` started from any state in which `encountered`
holds the members of `result`. -/
theorem clearSuggestions_loop (l : List GoString) :
    ∀ encountered result : List GoString, (∀ x, x ∈ encountered ↔ x ∈ result) →
      (l.foldl
        (fun (st : List GoString × List GoString) suggestion =>
          if suggestion ∈ st.1 then st else (suggestion :: st.1, st.2 ++ [suggestion]))
        (encountered, result)).2
        = result ++ (firstOccurrences l).filter (fun b => decide (b ∉ result)) := by
  induction l with
  | nil => intro encountered result _; simp [firstOccurrences]
  | cons a l ih =>
    intro encountered result henc
    by_cases ha : a ∈ encountered
    · have har : a ∈ result := (henc a).mp ha
      simp only [List.foldl_cons, ha, if_true]
      rw [ih encountered result henc]
      simp only [firstOccurrences, List.filter_cons, har, not_true_eq_false, decide_False,
        List.filter_filter]
      congr 1
      apply List.filter_congr
      intro x _
      by_cases hxa : x = a
      · subst hxa; simp [har]
      · simp [hxa]
    · have har : a ∉ result := fun h => ha ((henc a).mpr h)
      simp only [List.foldl_cons, ha, if_false]
      have henc2 : ∀ x, x ∈ a :: encountered ↔ x ∈ result ++ [a] := by
        intro x
        simp [henc x, or_comm]
      rw [ih (a :: encountered) (result ++ [a]) henc2]
      simp only [firstOccurrences, List.filter_cons, har, not_false_eq_true, decide_True,
        List.filter_filter, if_true, List.append_assoc, List.singleton_append]
      congr 2
      apply List.filter_congr
      intro x _
      by_cases hxa : x = a
      · subst hxa; simp
      · simp [hxa]

theorem clearSuggestions_eq (l : List GoString) : clearSuggestions l = firstOccurrences l := by
  have h := clearSuggestions_loop l [] [] (fun x => Iff.rfl)
  simpa [clearSuggestions] using h

theorem mem_clearSuggestions (l : List GoString) (x : GoString) :
    x ∈ clearSuggestions l ↔ x ∈ l := by
  rw [clearSuggestions_eq, mem_firstOccurrences]

/-- C11: when the depth is 0 or the word is empty, `generateVariations` returns the
empty list. -/
theorem generateVariations_terminal (word : GoString) (depth : Nat)
    (h : depth = 0 ∨ word = []) : generateVariations word depth = [] := by
  cases depth with
  | zero => rfl
  | succ d =>
    rcases h with h | h
    · exact absurd h (Nat.succ_ne_zero d)
    · subst h; simp [generateVariations]

/-- Witness for C11: the word "cat" at depth 0. -/
theorem generateVariations_terminal_witness : generateVariations [99, 97, 116] 0 = [] :=
  generateVariations_terminal [99, 97, 116] 0 (Or.inl rfl)

/-- C12: `clearSuggestions l` is the list of the distinct members of `l`, each
once, in the order of their first occurrence: it has no duplicate, it has the
same members as `l`, and it is the specification's first-occurrence list; so the
list returned by `generateVariations` contains no string twice. -/
theorem clearSuggestions_first_occurrences (l : List GoString) (word : GoString)
    (depth : Nat) :
    clearSuggestions l = firstOccurrences l
      ∧ (clearSuggestions l).Nodup
      ∧ (∀ x, x ∈ clearSuggestions l ↔ x ∈ l)
      ∧ (generateVariations word depth).Nodup := by
  refine ⟨clearSuggestions_eq l, ?_, mem_clearSuggestions l, ?_⟩
  · rw [clearSuggestions_eq]; exact nodup_firstOccurrences l
  · cases depth with
    | zero => simp [generateVariations]
    | succ d =>
      by_cases hw : word.length = 0
      · simp [generateVariations, hw]
      · simp only [generateVariations, hw, if_false]
        rw [clearSuggestions_eq]; exact nodup_firstOccurrences _

/-! ## Lemmas on the members of the generator's output -/

theorem baseVariations_eq_append (w : GoString) :
    baseVariations w = deletes w [] ++ transposes w [] ++ replaces w [] ++ inserts w [] := by
  simp only [baseVariations]
  rw [inserts_eq, replaces_eq, transposes_eq, inserts_eq w [], replaces_eq w [],
    transposes_eq w []]
  simp

theorem mem_baseVariations (w s : GoString) :
    s ∈ baseVariations w
      ↔ s ∈ deletes w [] ∨ s ∈ transposes w [] ∨ s ∈ replaces w [] ∨ s ∈ inserts w [] := by
  rw [baseVariations_eq_append]
  simp only [List.mem_append, or_assoc]

/-- The members of `generateVariations` at a positive depth: the base candidates
and the variations of the base candidates at the depth below. -/
theorem mem_generateVariations_succ (w s : GoString) (d : Nat) :
    s ∈ generateVariations w (d + 1)
      ↔ w ≠ [] ∧ (s ∈ baseVariations w
          ∨ ∃ v ∈ baseVariations w, s ∈ generateVariations v d) := by
  by_cases hw : w = []
  · subst hw; simp [generateVariations]
  · have hlen : w.length ≠ 0 := fun h => hw (List.length_eq_zero.mp h)
    simp only [generateVariations, hlen, if_false, mem_clearSuggestions, foldl_append_block,
      List.mem_append, List.mem_flatMap]
    simp [hw]

theorem byteAt_append_left (P R : GoString) (x : Byte) :
    byteAt (P ++ x :: R) P.length = x := by
  induction P with
  | nil => simp [byteAt]
  | cons a P ih => simpa [byteAt] using ih

theorem byteAt_append_succ (P R : GoString) (x y : Byte) :
    byteAt (P ++ x :: y :: R) (P.length + 1) = y := by
  have h : P ++ x :: y :: R = (P ++ [x]) ++ y :: R := by simp
  rw [h]
  have h2 := byteAt_append_left (P ++ [x]) R y
  simpa using h2

theorem mem_deletes_form (P R : GoString) (x : Byte) :
    P ++ R ∈ deletes (P ++ x :: R) [] := by
  rw [deletes_eq, List.nil_append, List.mem_map]
  refine ⟨P.length, by simp, ?_⟩
  simp

theorem mem_inserts_form (P R : GoString) (c : Byte) (hc : c ∈ DEFAULT_ALPHABET) :
    P ++ c :: R ∈ inserts (P ++ R) [] := by
  rw [inserts_eq, List.nil_append, List.mem_flatMap]
  refine ⟨P.length, by simp; omega, ?_⟩
  rw [List.mem_map]
  exact ⟨c, hc, by simp⟩

theorem mem_replaces_form (P R : GoString) (x c : Byte) (hc : c ∈ DEFAULT_ALPHABET) :
    P ++ c :: R ∈ replaces (P ++ x :: R) [] := by
  rw [replaces_eq, List.nil_append, List.mem_flatMap]
  refine ⟨P.length, by simp, ?_⟩
  rw [List.mem_map]
  exact ⟨c, hc, by simp⟩

theorem mem_transposes_form (P R : GoString) (x y : Byte) (hx : x.val < 0x80)
    (hy : y.val < 0x80) : P ++ y :: x :: R ∈ transposes (P ++ x :: y :: R) [] := by
  rw [transposes_eq, List.nil_append, List.mem_map]
  refine ⟨P.length, by simp, ?_⟩
  rw [byteAt_append_left, byteAt_append_succ, stringOfRune_ascii x hx, stringOfRune_ascii y hy]
  simp

theorem split_at (w : GoString) (i : Nat) (hi : i < w.length) :
    w = w.take i ++ byteAt w i :: w.drop (i + 1) ∧ (w.take i).length = i := by
  refine ⟨?_, by simp; omega⟩
  have h1 : byteAt w i = w[i] := by simp [byteAt, List.getD_eq_getElem?_getD, hi]
  rw [h1, ← List.drop_eq_getElem_cons hi, List.take_append_drop]

theorem of_mem_deletes (w s : GoString) (h : s ∈ deletes w []) :
    ∃ P x R, w = P ++ x :: R ∧ s = P ++ R := by
  rw [deletes_eq, List.nil_append, List.mem_map] at h
  obtain ⟨i, hi, rfl⟩ := h
  exact ⟨w.take i, byteAt w i, w.drop (i + 1), (split_at w i (List.mem_range.mp hi)).1, rfl⟩

theorem of_mem_inserts (w s : GoString) (h : s ∈ inserts w []) :
    ∃ P c R, c ∈ DEFAULT_ALPHABET ∧ w = P ++ R ∧ s = P ++ c :: R := by
  rw [inserts_eq, List.nil_append, List.mem_flatMap] at h
  obtain ⟨i, _, h2⟩ := h
  rw [List.mem_map] at h2
  obtain ⟨c, hc, rfl⟩ := h2
  exact ⟨w.take i, c, w.drop i, hc, (List.take_append_drop i w).symm, rfl⟩

theorem of_mem_replaces (w s : GoString) (h : s ∈ replaces w []) :
    ∃ P x c R, c ∈ DEFAULT_ALPHABET ∧ w = P ++ x :: R ∧ s = P ++ c :: R := by
  rw [replaces_eq, List.nil_append, List.mem_flatMap] at h
  obtain ⟨i, hi, h2⟩ := h
  rw [List.mem_map] at h2
  obtain ⟨c, hc, rfl⟩ := h2
  exact ⟨w.take i, byteAt w i, c, w.drop (i + 1), hc,
    (split_at w i (List.mem_range.mp hi)).1, rfl⟩

theorem of_mem_transposes (w s : GoString) (hw : ∀ b ∈ w, b.val < 0x80)
    (h : s ∈ transposes w []) :
    ∃ P x y R, w = P ++ x :: y :: R ∧ s = P ++ y :: x :: R := by
  rw [transposes_eq, List.nil_append, List.mem_map] at h
  obtain ⟨i, hi, rfl⟩ := h
  have hi1 : i + 1 < w.length := by have := List.mem_range.mp hi; omega
  have hi0 : i < w.length := by omega
  have e0 : byteAt w i = w[i] := by simp [byteAt, List.getD_eq_getElem?_getD, hi0]
  have e1 : byteAt w (i + 1) = w[i + 1] := by simp [byteAt, List.getD_eq_getElem?_getD, hi1]
  have h0 : (byteAt w i).val < 0x80 := by rw [e0]; exact hw _ (List.getElem_mem _)
  have h1 : (byteAt w (i + 1)).val < 0x80 := by rw [e1]; exact hw _ (List.getElem_mem _)
  refine ⟨w.take i, byteAt w i, byteAt w (i + 1), w.drop (i + 2), ?_, ?_⟩
  · rw [e0, e1, ← List.drop_eq_getElem_cons hi1, ← List.drop_eq_getElem_cons hi0,
      List.take_append_drop]
  · rw [stringOfRune_ascii _ h0, stringOfRune_ascii _ h1]
    simp

/-! ## The edit families on ASCII words -/

theorem deletes_eq_spec (w : GoString) : deletes w [] = specDeletions w := by
  rw [deletes_eq, specDeletions, List.nil_append]
  apply List.map_congr_left
  intro i _
  rw [List.eraseIdx_eq_take_drop_succ]

theorem replaces_eq_spec (w : GoString) : replaces w [] = specSubstitutions w := by
  rw [replaces_eq, specSubstitutions, List.nil_append]
  apply List.flatMap_congr
  intro i hi
  apply List.map_congr_left
  intro c _
  rw [List.set_eq_take_append_cons_drop, if_pos (List.mem_range.mp hi)]

theorem inserts_eq_spec (w : GoString) : inserts w [] = specInsertions w := by
  rw [inserts_eq, specInsertions, List.nil_append]
  apply List.flatMap_congr
  intro i hi
  apply List.map_congr_left
  intro c _
  rw [insertIdx_eq_take_drop c w i (Nat.le_of_lt_succ (List.mem_range.mp hi))]

theorem byteAt_mem (w : GoString) (i : Nat) (hi : i < w.length) : byteAt w i ∈ w := by
  have h : byteAt w i = w[i] := by simp [byteAt, List.getD_eq_getElem?_getD, hi]
  rw [h]; exact List.getElem_mem _

theorem transposes_eq_spec (w : GoString) (hw : ∀ b ∈ w, b.val < 0x80) :
    transposes w [] = specTranspositions w := by
  rw [transposes_eq, specTranspositions, List.nil_append]
  apply List.map_congr_left
  intro i hi
  have hi1 : i + 1 < w.length := by have := List.mem_range.mp hi; omega
  rw [stringOfRune_ascii _ (hw _ (byteAt_mem w i (by omega))),
    stringOfRune_ascii _ (hw _ (byteAt_mem w (i + 1) hi1)), swapAdjacent,
    set_set_eq_take_drop _ _ w i hi1]
  simp

/-- On an ASCII word the base candidates are the single edits of the specification. -/
theorem baseVariations_eq_singleEdits (w : GoString) (hw : ∀ b ∈ w, b.val < 0x80) :
    baseVariations w = singleEdits w := by
  rw [baseVariations_eq_append, singleEdits, deletes_eq_spec, replaces_eq_spec,
    inserts_eq_spec, transposes_eq_spec w hw]

/-- The base candidates of an ASCII word are ASCII words. -/
theorem baseVariations_ascii (w : GoString) (hw : ∀ b ∈ w, b.val < 0x80) :
    ∀ m ∈ baseVariations w, ∀ b ∈ m, b.val < 0x80 := by
  intro m hm b hb
  rw [mem_baseVariations] at hm
  rcases hm with h | h | h | h
  · obtain ⟨P, x, R, rfl, rfl⟩ := of_mem_deletes w m h
    apply hw
    simp only [List.mem_append, List.mem_cons] at hb ⊢
    tauto
  · obtain ⟨P, x, y, R, rfl, rfl⟩ := of_mem_transposes w m hw h
    apply hw
    simp only [List.mem_append, List.mem_cons] at hb ⊢
    tauto
  · obtain ⟨P, x, c, R, hc, rfl, rfl⟩ := of_mem_replaces w m h
    simp only [List.mem_append, List.mem_cons] at hb
    rcases hb with hb | hb | hb
    · exact hw b (by simp [hb])
    · rw [hb]; exact DEFAULT_ALPHABET_ascii c hc
    · exact hw b (by simp [hb])
  · obtain ⟨P, c, R, hc, rfl, rfl⟩ := of_mem_inserts w m h
    simp only [List.mem_append, List.mem_cons] at hb
    rcases hb with hb | hb | hb
    · exact hw b (by simp [hb])
    · rw [hb]; exact DEFAULT_ALPHABET_ascii c hc
    · exact hw b (by simp [hb])

theorem withinEdits_iff (d : Nat) (w s : GoString) :
    withinEdits d w s = true ↔ ∃ j, j < d ∧ editChain (j + 1) w s = true := by
  simp [withinEdits, List.any_eq_true, List.mem_range]

theorem editChain_succ_iff (k : Nat) (w s : GoString) :
    editChain (k + 1) w s = true ↔ ∃ m ∈ singleEdits w, editChain k m s = true := by
  simp [editChain, List.any_eq_true]

/-- Every string the generator returns for an ASCII word is within `d` single edits. -/
theorem generateVariations_withinEdits (d : Nat) :
    ∀ w : GoString, (∀ b ∈ w, b.val < 0x80) →
      ∀ s ∈ generateVariations w d, withinEdits d w s = true := by
  induction d with
  | zero => intro w _ s hs; simp [generateVariations] at hs
  | succ d ih =>
    intro w hw s hs
    rw [mem_generateVariations_succ] at hs
    rw [withinEdits_iff]
    rcases hs.2 with h | ⟨v, hv, hsv⟩
    · refine ⟨0, Nat.succ_pos d, ?_⟩
      rw [editChain_succ_iff]
      exact ⟨s, by rw [← baseVariations_eq_singleEdits w hw]; exact h, by simp [editChain]⟩
    · have hva := baseVariations_ascii w hw v hv
      obtain ⟨j, hj, hc⟩ := (withinEdits_iff d v s).mp (ih v hva s hsv)
      refine ⟨j + 1, Nat.succ_lt_succ hj, ?_⟩
      rw [editChain_succ_iff]
      exact ⟨v, by rw [← baseVariations_eq_singleEdits w hw]; exact hv, hc⟩

/-- C13 (failing input): at depth 1 the generator returns, for the word "é"
(bytes C3 A9, valid UTF-8), the four bytes C2 A9 C3 83 out of its "Transposes"
loop; no single deletion, transposition, substitution or insertion makes them
out of the two bytes of "é", and they are not the two bytes swapped. -/
theorem generateVariations_not_within_one_edit :
    transposes [0xC3, 0xA9] [] = [[0xC2, 0xA9, 0xC3, 0x83]]
      ∧ ([0xC2, 0xA9, 0xC3, 0x83] : GoString) ∈ generateVariations [0xC3, 0xA9] 1
      ∧ withinEdits 1 [0xC3, 0xA9] [0xC2, 0xA9, 0xC3, 0x83] = false
      ∧ swapAdjacent [0xC3, 0xA9] 0 = [0xA9, 0xC3] := by
  decide

/-- The edit bound on ASCII words: for every word `w` of ASCII bytes and every
depth `d`, every string returned by `generateVariations w d` is obtained from `w`
by a chain of at least 1 and at most `d` single edits, each a deletion, an
adjacent transposition, a substitution by a letter a-z or an insertion of a
letter a-z. -/
theorem generateVariations_edit_bound (w : GoString) (d : Nat)
    (hw : ∀ b ∈ w, b.val < 0x80) (s : GoString) (hs : s ∈ generateVariations w d) :
    withinEdits d w s = true ∧ ∃ k, 1 ≤ k ∧ k ≤ d ∧ editChain k w s = true := by
  have h := generateVariations_withinEdits d w hw s hs
  refine ⟨h, ?_⟩
  obtain ⟨j, hj, hc⟩ := (withinEdits_iff d w s).mp h
  exact ⟨j + 1, Nat.succ_pos j, hj, hc⟩

/-- The edit bound at "cat": "cart" is among its variations at depth 1. -/
theorem generateVariations_edit_bound_witness :
    withinEdits 1 [99, 97, 116] [99, 97, 114, 116] = true
      ∧ ∃ k, 1 ≤ k ∧ k ≤ 1 ∧ editChain k [99, 97, 116] [99, 97, 114, 116] = true :=
  generateVariations_edit_bound [99, 97, 116] 1 (by decide)
    [99, 97, 114, 116] (by decide)

/-- C18: for words `w` and `q` over the letters a-z with `q` non-empty, if `q` is
one of the base candidates of `w` then `w` is returned by `generateVariations q d`
for every depth `d >= 1`. -/
theorem single_edit_reversible (w q : GoString) (d : Nat) (hd : 1 ≤ d)
    (hw : ∀ b ∈ w, b ∈ DEFAULT_ALPHABET) (hq : ∀ b ∈ q, b ∈ DEFAULT_ALPHABET)
    (hne : q ≠ []) (h : q ∈ baseVariations w) : w ∈ generateVariations q d := by
  obtain ⟨d', rfl⟩ : ∃ d', d = d' + 1 := ⟨d - 1, by omega⟩
  rw [mem_generateVariations_succ]
  refine ⟨hne, Or.inl ?_⟩
  have hwa : ∀ b ∈ w, b.val < 0x80 := fun b hb => DEFAULT_ALPHABET_ascii b (hw b hb)
  rw [mem_baseVariations] at h ⊢
  rcases h with h | h | h | h
  · obtain ⟨P, x, R, rfl, rfl⟩ := of_mem_deletes w q h
    exact Or.inr (Or.inr (Or.inr (mem_inserts_form P R x (hw x (by simp)))))
  · obtain ⟨P, x, y, R, rfl, rfl⟩ := of_mem_transposes w q hwa h
    exact Or.inr (Or.inl (mem_transposes_form P R y x (hwa y (by simp)) (hwa x (by simp))))
  · obtain ⟨P, x, c, R, _, rfl, rfl⟩ := of_mem_replaces w q h
    exact Or.inr (Or.inr (Or.inl (mem_replaces_form P R c x (hw x (by simp)))))
  · obtain ⟨P, c, R, _, rfl, rfl⟩ := of_mem_inserts w q h
    exact Or.inl (mem_deletes_form P R c)

/-- Witness for C18: "wrod" is a transposition of "word", and "word" is returned
for "wrod" at depth 1. -/
theorem single_edit_reversible_witness :
    ([119, 111, 114, 100] : GoString) ∈ generateVariations [119, 114, 111, 100] 1 :=
  single_edit_reversible [119, 111, 114, 100] [119, 114, 111, 100] 1 (Nat.le_refl 1)
    (by decide) (by decide) (by decide) (by decide)

/-- The generator's output grows with the depth. -/
theorem generateVariations_mono (d : Nat) :
    ∀ (w s : GoString), s ∈ generateVariations w d → s ∈ generateVariations w (d + 1) := by
  induction d with
  | zero => intro w s hs; simp [generateVariations] at hs
  | succ d ih =>
    intro w s hs
    rw [mem_generateVariations_succ] at hs ⊢
    refine ⟨hs.1, ?_⟩
    rcases hs.2 with h | ⟨v, hv, hsv⟩
    · exact Or.inl h
    · exact Or.inr ⟨v, hv, ih v s hsv⟩

/-! ## Lemmas on termination -/

theorem foldl_appendReturned (g : GoString → List GoString) (l : List GoString) :
    ∀ acc : List GoString,
      l.foldl (fun acc variation => appendReturned acc (some (g variation))) (some acc)
        = some (l.foldl (fun acc variation => acc ++ g variation) acc) := by
  induction l with
  | nil => intro acc; rfl
  | cons x xs ih =>
    intro acc
    rw [List.foldl_cons, List.foldl_cons]
    exact ih (acc ++ g x)

/-- With more nested calls allowed than the depth, the generator returns, and it
returns the list computed by `generateVariations`. -/
theorem generateVariationsFuel_eq (fuel : Nat) :
    ∀ (word : GoString) (depth : Nat), depth < fuel →
      generateVariationsFuel fuel word (depth : Int) = some (generateVariations word depth) := by
  induction fuel with
  | zero => intro word depth h; exact absurd h (Nat.not_lt_zero _)
  | succ fuel ih =>
    intro word depth h
    cases depth with
    | zero => simp [generateVariationsFuel, generateVariations]
    | succ d =>
      by_cases hw : word.length = 0
      · simp [generateVariationsFuel, generateVariations, hw]
      · have hd : ((d + 1 : Nat) : Int) ≠ 0 := by omega
        have hstep : ∀ v : GoString,
            generateVariationsFuel fuel v (((d + 1 : Nat) : Int) - 1)
              = some (generateVariations v d) := by
          intro v
          have e : ((d + 1 : Nat) : Int) - 1 = (d : Int) := by omega
          rw [e]
          exact ih v d (Nat.lt_of_succ_lt_succ h)
        simp only [generateVariationsFuel, generateVariations, hd, hw, or_self, if_false,
          hstep, foldl_appendReturned, Option.map_some']

theorem searchWalkFuel_eq (fuel : Nat) (t : Trie) (hfuel : t.depth < fuel) (word : GoString)
    (rs : List Rune) :
    ∀ node : LetterNode,
      searchWalkFuel fuel t word node rs = some (searchWalk t word node rs) := by
  induction rs with
  | nil => intro node; rfl
  | cons c rest ih =>
    intro node
    cases hc : node.children c with
    | none =>
      simp only [searchWalkFuel, searchWalk, hc, generateVariationsFuel_eq fuel word t.depth hfuel]
      cases validSuggestions t (generateVariations word t.depth) [] <;> rfl
    | some n => simp only [searchWalkFuel, searchWalk, hc, ih n]

theorem length_runesAux_le (fuel : Nat) :
    ∀ s : GoString, (runesAux fuel s).length ≤ s.length := by
  induction fuel with
  | zero => intro s; simp [runesAux]
  | succ fuel ih =>
    intro s
    cases s with
    | nil => simp [runesAux]
    | cons b rest =>
      have hw := decodeRune_width_pos (b :: rest)
      have h := ih ((b :: rest).drop (decodeRune (b :: rest)).2)
      rw [List.length_drop] at h
      simp only [runesAux, List.length_cons] at h ⊢
      omega

/-- C14: `generateVariations` called with a non-negative depth returns once at most
`depth + 1` nested calls are allowed (the recursion descends on the depth), and
so does `Search`; the `range` loop of `Insert`, `SearchDirect` and `Search` visits
at most `len(word)` runes and is complete after `len(word)` iterations. -/
theorem operations_terminate (t : Trie) (word : GoString) (depth fuel : Nat)
    (hdepth : depth < fuel) (ht : t.depth < fuel) :
    generateVariationsFuel fuel word (depth : Int) = some (generateVariations word depth)
      ∧ t.SearchFuel fuel word = some (t.Search word)
      ∧ (∀ n, word.length ≤ n → runesAux n word = runes word)
      ∧ (runes word).length ≤ word.length := by
  refine ⟨generateVariationsFuel_eq fuel word depth hdepth, ?_,
    fun n hn => runesAux_of_le word n hn, length_runesAux_le _ word⟩
  cases hr : t.root with
  | none => simp [Trie.SearchFuel, Trie.Search, hr]
  | some n => simp [Trie.SearchFuel, Trie.Search, hr, searchWalkFuel_eq fuel t ht word]

/-- Witness for C14: the dictionary "cat" with depth 1, the query "rat" and two
nested calls allowed. -/
theorem operations_terminate_witness :
    generateVariationsFuel 2 [114, 97, 116] ((1 : Nat) : Int)
        = some (generateVariations [114, 97, 116] 1)
      ∧ (insertAll (newTrie 1) [[99, 97, 116]]).SearchFuel 2 [114, 97, 116]
        = some ((insertAll (newTrie 1) [[99, 97, 116]]).Search [114, 97, 116])
      ∧ (∀ n, ([114, 97, 116] : GoString).length ≤ n →
          runesAux n [114, 97, 116] = runes [114, 97, 116])
      ∧ (runes [114, 97, 116]).length ≤ ([114, 97, 116] : GoString).length :=
  operations_terminate (insertAll (newTrie 1) [[99, 97, 116]]) [114, 97, 116] 1 2
    (by decide) (by decide)

/-! ## Lemmas on the walk -/

/-- The walk of `Search` returns the flag that `SearchDirect` computes. -/
theorem searchWalk_fst (t : Trie) (n0 : LetterNode) (hroot : t.root = some n0)
    (word : GoString) (rs : List Rune) :
    ∀ node : LetterNode, ∃ suggestions,
      searchWalk t word node rs = some (searchNode node rs, suggestions) := by
  induction rs with
  | nil => intro node; exact ⟨[], rfl⟩
  | cons c rest ih =>
    intro node
    cases hc : node.children c with
    | none =>
      simp [searchWalk, searchNode, hc, validSuggestions_root t n0 hroot]
    | some n => simpa [searchWalk, searchNode, hc] using ih n

/-- A failed walk returns false and the confirmed variations of the whole word. -/
theorem searchWalk_of_walkFails (t : Trie) (n0 : LetterNode) (hroot : t.root = some n0)
    (word : GoString) (rs : List Rune) :
    ∀ node : LetterNode, walkFails node rs = true →
      searchWalk t word node rs
        = some (false, (generateVariations word t.depth).filter
            (fun s => searchNode n0 (runes s))) := by
  induction rs with
  | nil => intro node h; simp [walkFails] at h
  | cons c rest ih =>
    intro node h
    cases hc : node.children c with
    | none => simp [searchWalk, hc, validSuggestions_root t n0 hroot]
    | some n =>
      simp only [walkFails, hc] at h
      simp only [searchWalk, hc]
      exact ih n h

theorem searchNode_of_walkFails (rs : List Rune) :
    ∀ node : LetterNode, walkFails node rs = true → searchNode node rs = false := by
  induction rs with
  | nil => intro node h; simp [walkFails] at h
  | cons c rest ih =>
    intro node h
    cases hc : node.children c with
    | none => simp [searchNode, hc]
    | some n =>
      simp only [walkFails, hc] at h
      simp only [searchNode, hc]
      exact ih n h

theorem search_of_walkFails (t : Trie) (n : LetterNode) (hroot : t.root = some n)
    (w : GoString) (hfail : walkFails n (runes w) = true) :
    t.Search w = some (false, (generateVariations w t.depth).filter
      (fun s => searchNode n (runes s))) := by
  simp only [Trie.Search, hroot]
  exact searchWalk_of_walkFails t n hroot w (runes w) n hfail

/-- C16: when the walk of `Search w` fails at a missing child, the first rune
included, `Search w` returns false and the list `generateVariations w depth`
filtered by `SearchDirect`, in the generator's order. -/
theorem search_whole_word_fallback (t : Trie) (n : LetterNode) (w : GoString)
    (hroot : t.root = some n) (hfail : walkFails n (runes w) = true) :
    t.Search w = some (false, (generateVariations w t.depth).filter
      (fun s => decide (t.SearchDirect s = some true))) := by
  rw [search_of_walkFails t n hroot w hfail]
  congr 2
  apply List.filter_congr
  intro s _
  simp [Trie.SearchDirect, hroot]

/-- Witness for C16: the dictionary "cat", "bat" queried with "rat", whose first
letter has no child at the root. -/
theorem search_whole_word_fallback_witness :
    (insertAll (newTrie 1) [[99, 97, 116], [98, 97, 116]]).Search [114, 97, 116]
      = some (false, (generateVariations [114, 97, 116]
          (insertAll (newTrie 1) [[99, 97, 116], [98, 97, 116]]).depth).filter
          (fun s => decide
            ((insertAll (newTrie 1) [[99, 97, 116], [98, 97, 116]]).SearchDirect s
              = some true))) :=
  search_whole_word_fallback (insertAll (newTrie 1) [[99, 97, 116], [98, 97, 116]])
    (insertNode (insertNode LetterNode.fresh (runes [99, 97, 116])) (runes [98, 97, 116]))
    [114, 97, 116] rfl (by decide)

/-- C17: on a trie that has its root, `Search w` returns, and the flag it returns
is the value of `SearchDirect w`; when the walk stops at a missing child,
`SearchDirect w` is false. -/
theorem search_flag_eq_searchDirect (t : Trie) (w : GoString) (hroot : t.root ≠ none) :
    (∃ suggestions found, t.Search w = some (found, suggestions)
        ∧ t.SearchDirect w = some found)
      ∧ (t.Search w).map Prod.fst = t.SearchDirect w
      ∧ (∀ n, t.root = some n → walkFails n (runes w) = true →
          t.SearchDirect w = some false) := by
  cases hr : t.root with
  | none => exact absurd hr hroot
  | some n =>
    obtain ⟨l, hl⟩ := searchWalk_fst t n hr w (runes w) n
    refine ⟨⟨l, searchNode n (runes w), ?_, ?_⟩, ?_, ?_⟩
    · simp [Trie.Search, hr, hl]
    · simp [Trie.SearchDirect, hr]
    · simp [Trie.Search, Trie.SearchDirect, hr, hl]
    · intro m hm hfail
      cases hm
      simp [Trie.SearchDirect, hr, searchNode_of_walkFails (runes w) n hfail]

/-- Witness for C17: the dictionary "cat" queried with its prefix "ca". -/
theorem search_flag_eq_searchDirect_witness :
    ((insertAll (newTrie 1) [[99, 97, 116]]).Search [99, 97]).map Prod.fst
      = (insertAll (newTrie 1) [[99, 97, 116]]).SearchDirect [99, 97] :=
  (search_flag_eq_searchDirect (insertAll (newTrie 1) [[99, 97, 116]]) [99, 97]
    (by simp [insertAll, Trie.Insert])).2.1

/-! ## Lemmas on the order of insertions -/

theorem insertNode_nil (node : LetterNode) :
    insertNode node [] = LetterNode.mk node.children true := by
  by_cases h : node.isWord = true
  · simp only [insertNode, h, if_true]
    rw [← h]; exact (LetterNode.eta node).symm
  · simp [insertNode, h]

/-- Two insertions from the same node commute. -/
theorem insertNode_comm (rs : List Rune) :
    ∀ (node : LetterNode) (qs : List Rune),
      insertNode (insertNode node rs) qs = insertNode (insertNode node qs) rs := by
  induction rs with
  | nil =>
    intro node qs
    cases qs with
    | nil => rfl
    | cons q qs => rw [insertNode_nil, insertNode_nil]; simp [insertNode]
  | cons c rest ih =>
    intro node qs
    cases qs with
    | nil => rw [insertNode_nil, insertNode_nil]; simp [insertNode]
    | cons q qs =>
      by_cases hq : q = c
      · subst hq
        simp only [insertNode, LetterNode.children_mk, LetterNode.isWord_mk,
          Function.update_same, Function.update_idem]
        rw [ih]
      · have hq2 : c ≠ q := fun h => hq h.symm
        simp only [insertNode, LetterNode.children_mk, LetterNode.isWord_mk,
          Function.update_noteq hq, Function.update_noteq hq2]
        rw [Function.update_comm hq]

theorem Trie.Insert_comm (t : Trie) (a b : GoString) :
    (t.Insert a).Insert b = (t.Insert b).Insert a := by
  simp only [Trie.Insert]
  rw [insertNode_comm]

theorem Trie.Insert_idem (t : Trie) (w : GoString) : (t.Insert w).Insert w = t.Insert w := by
  simp only [Trie.Insert]
  rw [insertNode_of_searchNode (runes w) _ (searchNode_insertNode_self (runes w) _)]

theorem insertAll_perm (l1 l2 : List GoString) (h : l1.Perm l2) (t : Trie) :
    insertAll t l1 = insertAll t l2 :=
  h.foldl_eq' (fun x _ y _ z => Trie.Insert_comm z x y) t

theorem insertAll_of_mem (a : GoString) (l : List GoString) (h : a ∈ l) (t : Trie) :
    insertAll (t.Insert a) l = insertAll t l := by
  have hp := List.perm_cons_erase h
  rw [insertAll_perm l _ hp (t.Insert a), insertAll_perm l _ hp t]
  simp only [insertAll, List.foldl_cons, Trie.Insert_idem]

theorem insertAll_dedup (l : List GoString) : ∀ t : Trie, insertAll t l.dedup = insertAll t l := by
  induction l with
  | nil => intro t; rfl
  | cons a l ih =>
    intro t
    by_cases ha : a ∈ l
    · rw [List.dedup_cons_of_mem ha, ih t]
      exact (insertAll_of_mem a l ha t).symm
    · rw [List.dedup_cons_of_not_mem ha]
      exact ih (t.Insert a)

/-- The trie after a sequence of insertions depends on the set of words only. -/
theorem insertAll_of_same_members (l1 l2 : List GoString) (h : ∀ x, x ∈ l1 ↔ x ∈ l2)
    (t : Trie) : insertAll t l1 = insertAll t l2 := by
  have hp : l1.dedup.Perm l2.dedup :=
    (List.perm_ext_iff_of_nodup (List.nodup_dedup l1) (List.nodup_dedup l2)).mpr
      (fun x => by simp [h x])
  rw [← insertAll_dedup l1 t, ← insertAll_dedup l2 t]
  exact insertAll_perm _ _ hp t

/-- C19: `Insert a` followed by `Insert b` yields the same trie as `Insert b`
followed by `Insert a`; two sequences of insertions with the same set of words,
applied to the same trie, yield the same trie, hence the same results of
`SearchDirect` and of `Search`. -/
theorem insert_order_irrelevant (t : Trie) (a b : GoString) (l1 l2 : List GoString)
    (w : GoString) (h : ∀ x, x ∈ l1 ↔ x ∈ l2) :
    (t.Insert a).Insert b = (t.Insert b).Insert a
      ∧ insertAll t l1 = insertAll t l2
      ∧ (insertAll t l1).SearchDirect w = (insertAll t l2).SearchDirect w
      ∧ (insertAll t l1).Search w = (insertAll t l2).Search w := by
  have e := insertAll_of_same_members l1 l2 h t
  exact ⟨Trie.Insert_comm t a b, e, by rw [e], by rw [e]⟩

/-- Witness for C19: "cat", "bat", "cat" against "bat", "cat". -/
theorem insert_order_irrelevant_witness :
    ((newTrie 1).Insert [99, 97, 116]).Insert [98, 97, 116]
        = ((newTrie 1).Insert [98, 97, 116]).Insert [99, 97, 116]
      ∧ insertAll (newTrie 1) [[99, 97, 116], [98, 97, 116], [99, 97, 116]]
        = insertAll (newTrie 1) [[98, 97, 116], [99, 97, 116]]
      ∧ (insertAll (newTrie 1) [[99, 97, 116], [98, 97, 116], [99, 97, 116]]).SearchDirect
          [114, 97, 116]
        = (insertAll (newTrie 1) [[98, 97, 116], [99, 97, 116]]).SearchDirect [114, 97, 116]
      ∧ (insertAll (newTrie 1) [[99, 97, 116], [98, 97, 116], [99, 97, 116]]).Search
          [114, 97, 116]
        = (insertAll (newTrie 1) [[98, 97, 116], [99, 97, 116]]).Search [114, 97, 116] :=
  insert_order_irrelevant (newTrie 1) [99, 97, 116] [98, 97, 116]
    [[99, 97, 116], [98, 97, 116], [99, 97, 116]] [[98, 97, 116], [99, 97, 116]]
    [114, 97, 116] (by intro x; simp; tauto)

/-- C20: every string of `generateVariations w d` is in `generateVariations w (d+1)`;
hence, on a trie with a given root and a query whose walk fails, `Search` at
depth `d` and at depth `d+1` both return false, and every suggestion returned at
depth `d` is returned at depth `d+1`. -/
theorem generateVariations_depth_monotone (w : GoString) (d : Nat) (n : LetterNode) :
    (∀ s ∈ generateVariations w d, s ∈ generateVariations w (d + 1))
      ∧ (walkFails n (runes w) = true →
          ∃ l1 l2, (Trie.mk (some n) d).Search w = some (false, l1)
            ∧ (Trie.mk (some n) (d + 1)).Search w = some (false, l2)
            ∧ ∀ s ∈ l1, s ∈ l2) := by
  refine ⟨fun s hs => generateVariations_mono d w s hs, fun hfail => ?_⟩
  refine ⟨_, _, search_of_walkFails ⟨some n, d⟩ n rfl w hfail,
    search_of_walkFails ⟨some n, d + 1⟩ n rfl w hfail, ?_⟩
  intro s hs
  rw [List.mem_filter] at hs ⊢
  exact ⟨generateVariations_mono d w s hs.1, hs.2⟩

/-- Witness for C20: the root of the dictionary "cat" and the query "rat" at depths
1 and 2: the suggestion "cat" returned at depth 1 is returned at depth 2. -/
theorem generateVariations_depth_monotone_witness :
    (Trie.mk (some (insertNode LetterNode.fresh (runes [99, 97, 116]))) 1).Search
        [114, 97, 116] = some (false, [[99, 97, 116]])
      ∧ ∃ l2,
        (Trie.mk (some (insertNode LetterNode.fresh (runes [99, 97, 116]))) (1 + 1)).Search
            [114, 97, 116] = some (false, l2)
          ∧ ([99, 97, 116] : GoString) ∈ l2 := by
  obtain ⟨l1, l2, h1, h2, hsub⟩ :=
    (generateVariations_depth_monotone [114, 97, 116] 1
      (insertNode LetterNode.fresh (runes [99, 97, 116]))).2 (by decide)
  have e : (Trie.mk (some (insertNode LetterNode.fresh (runes [99, 97, 116]))) 1).Search
      [114, 97, 116] = some (false, [[99, 97, 116]]) := by decide
  rw [e] at h1
  have hl : l1 = [[99, 97, 116]] := by
    simp only [Option.some.injEq, Prod.mk.injEq, true_and] at h1
    exact h1.symm
  exact ⟨e, l2, h2, hsub _ (by rw [hl]; simp)⟩

/-! ## Negative depth -/

theorem foldl_appendReturned_none (f : GoString → Option (List GoString))
    (l : List GoString) :
    l.foldl (fun acc variation => appendReturned acc (f variation)) none = none := by
  induction l with
  | nil => rfl
  | cons x xs ih => simpa [appendReturned] using ih

theorem foldl_appendReturned_of_none (f : GoString → Option (List GoString))
    (l : List GoString) (v : GoString) (hv : v ∈ l) (hf : f v = none) :
    ∀ acc, l.foldl (fun acc variation => appendReturned acc (f variation)) acc = none := by
  induction l with
  | nil => simp at hv
  | cons x xs ih =>
    intro acc
    rw [List.foldl_cons]
    rcases List.mem_cons.mp hv with h | h
    · subst h
      rw [hf]
      have : appendReturned acc none = none := by cases acc <;> rfl
      rw [this]
      exact foldl_appendReturned_none f xs
    · exact ih h _

/-- With a negative depth the generator does not return on a non-empty word,
however many nested calls are allowed: the depth never meets 0. -/
theorem generateVariationsFuel_negative (fuel : Nat) :
    ∀ (word : GoString) (depth : Int), depth < 0 → word ≠ [] →
      generateVariationsFuel fuel word depth = none := by
  induction fuel with
  | zero => intro word depth _ _; rfl
  | succ fuel ih =>
    intro word depth hd hw
    have hlen : word.length ≠ 0 := fun h => hw (List.length_eq_zero.mp h)
    have hd0 : depth ≠ 0 := by omega
    have hmem : (97 : Byte) :: word ∈ baseVariations word := by
      rw [mem_baseVariations]
      exact Or.inr (Or.inr (Or.inr (mem_inserts_form [] word 97 (by decide))))
    have hnone : generateVariationsFuel fuel ((97 : Byte) :: word) (depth - 1) = none :=
      ih _ _ (by omega) (by simp)
    simp only [generateVariationsFuel, hd0, hlen, or_self, if_false]
    rw [foldl_appendReturned_of_none
      (fun variation => generateVariationsFuel fuel variation (depth - 1)) _ _ hmem hnone]
    rfl

end Spellcheck
